import Mathlib

/-!
Verification of the jax-js compiler core against its specification.

This file gives a shallow embedding, in Lean 4, of the parts of the
jax-js sources that the spec claims are about:

* `src/alu.ts` — the scalar expression IR `AluExp`, its evaluator and
  its algebraic simplifier;
* `src/shape.ts` — `View.create`;
* `src/core.ts` — the vmap batching rule for `reduceSum` and the
  axis-size validation loop of `vmapFlat`;
* the JVP rules for `Min` and `Max` (frontend `jvp.ts`);
* the `random` module`s `uniform` (two revisions are present in the repo);
* the CPU backend`s reference-counted slots;
* the lazy `Array.#binary` of `src/array.ts`.

JavaScript numbers are modelled by exact rationals `ℚ`: every numeric
value the claims exercise (32-bit integers, small literals such as 2.5)
is exactly representable in an IEEE-754 double, and all the arithmetic
steps appearing in the counterexamples below are exact in double
precision, so the refutations transfer verbatim to the JavaScript code.
Division by zero (JavaScript `Infinity`/`NaN`) lies outside the rational
model; no theorem or counterexample below exercises it.  `Math.sin` and
`Math.cos` are modelled as an opaque pair of functions `ℚ → ℚ` threaded
through both the evaluator and the simplifier, exactly as both use the
single ambient `Math.sin` in the source.
-/

namespace JaxJs

/-- `DType` enum from src/alu.ts. -/
inductive DType where
  | float32
  | int32
  | bool
  | complex64
deriving DecidableEq, Repr

/-- A JavaScript runtime value as it flows through `AluExp.evaluate`:
either a number (modelled as an exact rational) or a boolean. -/
inductive Val where
  | num (q : ℚ)
  | bool (v : Bool)
deriving DecidableEq, Repr

/-- JavaScript truthiness (`x ? _ : _`, `x || y`, `x && y` tests). -/
def Val.truthy : Val → Bool
  | .num q => q != 0
  | .bool v => v

/-- JavaScript ToNumber coercion restricted to our value domain
(numbers are themselves; `true ↦ 1`, `false ↦ 0`). -/
def Val.toNum : Val → ℚ
  | .num q => q
  | .bool v => if v then 1 else 0

/-- JavaScript `x || y`: returns `x` if truthy, else `y` (the operand
itself, not a coerced boolean). -/
def jsOr (x y : Val) : Val := if x.truthy then x else y

/-- JavaScript `x && y`: returns `x` if falsy, else `y`. -/
def jsAnd (x y : Val) : Val := if x.truthy then y else x

/-- JavaScript truncation toward zero, as used by the `%` operator. -/
def jsTrunc (q : ℚ) : ℤ := if 0 ≤ q then ⌊q⌋ else -⌊-q⌋

/-- JavaScript `x % y`: the remainder with the sign of the dividend,
`x - y * trunc(x / y)`.  (For `y = 0` JavaScript yields `NaN`, outside
the rational model; here `x / 0 = 0` so the value is `x`.) -/
def jsMod (x y : ℚ) : ℚ := x - y * jsTrunc (x / y)

/-- The ops of `AluGroup.Binary` in src/alu.ts. -/
inductive BinOp where
  | add
  | sub
  | mul
  | idiv
  | mod
deriving DecidableEq, Repr

/-- The ops of `AluGroup.Compare` in src/alu.ts. -/
inductive CmpOp where
  | cmplt
  | cmpne
deriving DecidableEq, Repr

/-- The ops of `AluGroup.Unary` in src/alu.ts. -/
inductive UnOp where
  | sin
  | cos
deriving DecidableEq, Repr

/-- Scalar expression nodes, mirroring the `AluExp` class of src/alu.ts.
The source stores `(op, dtype, src, arg)` with a list of children; here
each op group is a constructor with the arity the code always uses, the
node dtype is kept as an explicit field, and `arg` appears as the
constructor payload (`Val` for `Const`, name/bound for `Special`, the
buffer id for `GlobalIndex`). -/
inductive AluExp where
  | binary (op : BinOp) (dtype : DType) (x y : AluExp)
  | compare (op : CmpOp) (dtype : DType) (x y : AluExp)
  | unary (op : UnOp) (dtype : DType) (x : AluExp)
  | whereE (dtype : DType) (cond x y : AluExp)
  | constE (dtype : DType) (arg : Val)
  | special (dtype : DType) (name : String) (n : ℤ)
  | globalIndex (dtype : DType) (gid : ℤ) (bufidx : AluExp)
deriving DecidableEq, Repr

namespace AluExp

/-- The `dtype` field of a node. -/
def dtype : AluExp → DType
  | .binary _ dt _ _ => dt
  | .compare _ dt _ _ => dt
  | .unary _ dt _ => dt
  | .whereE dt _ _ _ => dt
  | .constE dt _ => dt
  | .special dt _ _ => dt
  | .globalIndex dt _ _ => dt

/-- `AluExp.add` static helper (dtype taken from the first operand). -/
def add (a b : AluExp) : AluExp := .binary .add a.dtype a b

/-- `AluExp.sub` static helper. -/
def sub (a b : AluExp) : AluExp := .binary .sub a.dtype a b

/-- `AluExp.mul` static helper. -/
def mul (a b : AluExp) : AluExp := .binary .mul a.dtype a b

/-- `AluExp.idiv` static helper. -/
def idiv (a b : AluExp) : AluExp := .binary .idiv a.dtype a b

/-- `AluExp.mod` static helper. -/
def modE (a b : AluExp) : AluExp := .binary .mod a.dtype a b

/-- `AluExp.cmplt` static helper (result dtype `Bool`). -/
def cmplt (a b : AluExp) : AluExp := .compare .cmplt .bool a b

/-- `AluExp.cmpne` static helper (result dtype `Bool`). -/
def cmpne (a b : AluExp) : AluExp := .compare .cmpne .bool a b

/-- `AluExp.where` static helper (dtype taken from the second operand). -/
def whereH (cond a b : AluExp) : AluExp := .whereE a.dtype cond a b

/-- `AluExp.i32` static helper. -/
def i32 (value : ℚ) : AluExp := .constE .int32 (.num value)

/-- `AluExp.f32` static helper. -/
def f32 (value : ℚ) : AluExp := .constE .float32 (.num value)

end AluExp

/-- The ambient `Math.sin` / `Math.cos`, opaque to the algebra but shared
between the evaluator and constant folding in the simplifier. -/
structure MathFns where
  sin : ℚ → ℚ
  cos : ℚ → ℚ

/-- The evaluation context of `AluExp.evaluate`: the `context` record
binding `Special` names, and the `globals` accessor for `GlobalIndex`.
Both are total here, matching the claims, which supply a value for every
free `Special` and a `globals` function whenever `GlobalIndex` occurs. -/
structure Ctx where
  vars : String → Val
  globals : ℤ → Val → Val

/-- Evaluation of one `Binary`-group op, following the `switch` in
`AluExp.evaluate`: boolean `add`/`mul` are JavaScript `||`/`&&`,
`idiv` is `Math.floor(x / y)`, `mod` is `x % y`. -/
def evalBinary (op : BinOp) (dt : DType) (x y : Val) : Val :=
  match op with
  | .add => if dt = .bool then jsOr x y else .num (x.toNum + y.toNum)
  | .sub => .num (x.toNum - y.toNum)
  | .mul => if dt = .bool then jsAnd x y else .num (x.toNum * y.toNum)
  | .idiv => .num (⌊x.toNum / y.toNum⌋ : ℤ)
  | .mod => .num (jsMod x.toNum y.toNum)

/-- Evaluation of one `Compare`-group op (`x < y`, `x != y`; JavaScript
loose comparison coerces booleans to numbers on our value domain). -/
def evalCompare (op : CmpOp) (x y : Val) : Val :=
  match op with
  | .cmplt => .bool (decide (x.toNum < y.toNum))
  | .cmpne => .bool (x.toNum != y.toNum)

/-- `AluExp.evaluate(context, globals)` from src/alu.ts. -/
def evaluate (mf : MathFns) (ctx : Ctx) : AluExp → Val
  | .binary op dt x y => evalBinary op dt (evaluate mf ctx x) (evaluate mf ctx y)
  | .compare op _ x y => evalCompare op (evaluate mf ctx x) (evaluate mf ctx y)
  | .unary op _ x =>
    match op with
    | .sin => .num (mf.sin (evaluate mf ctx x).toNum)
    | .cos => .num (mf.cos (evaluate mf ctx x).toNum)
  | .whereE _ cond x y =>
    if (evaluate mf ctx cond).truthy then evaluate mf ctx x else evaluate mf ctx y
  | .constE _ v => v
  | .special _ name _ => ctx.vars name
  | .globalIndex _ gid bufidx => ctx.globals gid (evaluate mf ctx bufidx)

/-- The context `{}` (no variables, no globals) that `simplifyInner`
passes to `evaluate` for constant folding.  Constant folding only fires
when every source is a `Const` and the op is not `Special`/`GlobalIndex`,
so these fields are never consulted there. -/
def emptyCtx : Ctx := { vars := fun _ => .num 0, globals := fun _ _ => .num 0 }

/-- `e.arg` when `e.op === Const`, else `undefined`. -/
def constArg : AluExp → Option Val
  | .constE _ v => some v
  | _ => none

/-- The flipped op used by the `x ± (-1 * y) ⇒ x ∓ y` rewrite. -/
def opNeg : BinOp → BinOp
  | .add => .sub
  | .sub => .add
  | op => op

/-- The `x + (-1 * y) ⇒ x - y` / `x - (-1 * y) ⇒ x + y` rewrite of
`simplifyInner` (lines 100–110 of src/alu.ts): fires when the op is
`Add` or `Sub` and the (already simplified) second source is a `Mul`
with a constant `-1` factor; the result is returned directly, without
further simplification or constant folding. -/
def rewriteNegMul (op : BinOp) (dt : DType) (x y : AluExp) : Option AluExp :=
  if op = .add ∨ op = .sub then
    match y with
    | .binary .mul _ ma mb =>
      if constArg ma = some (.num (-1)) then some (.binary (opNeg op) dt x mb)
      else if constArg mb = some (.num (-1)) then some (.binary (opNeg op) dt x ma)
      else none
    | _ => none
  else none

/-- The tail of `simplifyInner` for a `Binary`-group node: reconstruct
the node from its simplified sources and constant-fold it (via
`evaluate` on the empty context) when both sources are constants. -/
def foldOrRebuild (mf : MathFns) (op : BinOp) (dt : DType) (x y : AluExp) : AluExp :=
  if (constArg x).isSome ∧ (constArg y).isSome then
    .constE dt (evaluate mf emptyCtx (.binary op dt x y))
  else .binary op dt x y

/-- The body of `simplifyInner` for a `Binary`-group node, applied to
already-simplified sources `x` and `y`.  The if-chain reproduces the
source loop (`i = 0` checks first, then `i = 1`), then the
`x ± (-1*y)` rewrite (which returns without further folding), then
reconstruction and constant folding. -/
def simplifyBinary (mf : MathFns) (op : BinOp) (dt : DType) (x y : AluExp) : AluExp :=
  if op = .add ∧ constArg x = some (.num 0) then y
  else if op = .mul ∧ constArg x = some (.num 1) then y
  else if op = .mul ∧ constArg x = some (.num 0) then .constE dt (.num 0)
  else if op = .add ∧ constArg y = some (.num 0) then x
  else if op = .sub ∧ constArg y = some (.num 0) then x
  else if op = .mul ∧ constArg y = some (.num 1) then x
  else if op = .mul ∧ constArg y = some (.num 0) then .constE dt (.num 0)
  else if op = .idiv ∧ constArg y = some (.num 1) then x
  else
    match rewriteNegMul op dt x y with
    | some e => e
    | none => foldOrRebuild mf op dt x y

/-- `AluExp.simplify` from src/alu.ts (the memo cache of the source only
avoids recomputation; the computed result is `simplifyInner`, bottom-up).
`Where` with a constant condition selects a branch; a `Where` whose
sources are all constants necessarily has a constant condition, so the
constant-folding line of the source is unreachable for it and is omitted
in that branch; `Const` reconstructs an equal constant; `Special` and
`GlobalIndex` are in `AluGroup.Variable` and are never folded. -/
def simplify (mf : MathFns) : AluExp → AluExp
  | .binary op dt x y => simplifyBinary mf op dt (simplify mf x) (simplify mf y)
  | .compare op dt x y =>
    let x' := simplify mf x
    let y' := simplify mf y
    if (constArg x').isSome ∧ (constArg y').isSome then
      .constE dt (evaluate mf emptyCtx (.compare op dt x' y'))
    else .compare op dt x' y'
  | .unary op dt x =>
    let x' := simplify mf x
    if (constArg x').isSome then
      .constE dt (evaluate mf emptyCtx (.unary op dt x'))
    else .unary op dt x'
  | .whereE dt cond x y =>
    let c' := simplify mf cond
    let x' := simplify mf x
    let y' := simplify mf y
    match constArg c' with
    | some v => if v.truthy then x' else y'
    | none => .whereE dt c' x' y'
  | .constE dt v => .constE dt v
  | .special dt name n => .special dt name n
  | .globalIndex dt gid bufidx => .globalIndex dt gid (simplify mf bufidx)

/-! ### The integer/boolean fragment

The simplifier is not semantics-preserving on arbitrary values (see the
counterexample for C1: `idiv(2.5, 1)` simplifies to `2.5` but evaluates
to `floor(2.5) = 2`).  The fragment on which it is sound is the one the
library actually uses `AluExp` for — index arithmetic — where every
number flowing through an expression is an integer and every boolean
node really holds a boolean.  `WT` is the syntactic side of that
fragment; `CtxOk` states that the context supplies values of the right
kind for the `Special` and `GlobalIndex` leaves. -/

/-- Is this value a boolean? -/
def Val.isBool : Val → Bool
  | .bool _ => true
  | _ => false

/-- Is this value an integer-valued number? -/
def Val.isIntNum : Val → Bool
  | .num q => q.den == 1
  | _ => false

/-- A value inhabiting a dtype within the integer fragment: `Bool` nodes
hold booleans, numeric dtypes hold integer-valued numbers. -/
def HasIntType (v : Val) (dt : DType) : Bool :=
  if dt = .bool then v.isBool else v.isIntNum

/-- Well-typedness in the integer/boolean fragment: dtypes of operands
agree with the node dtype, boolean nodes only occur for the ops that
implement boolean OR/AND (`add`/`mul`) or comparisons/`where`, constants
carry values of their dtype, and the float-producing `sin`/`cos` are
excluded. -/
def WT : AluExp → Bool
  | .binary op dt x y =>
    WT x && WT y && (x.dtype == dt) && (y.dtype == dt) &&
      (!(dt == .bool) || (op == .add || op == .mul))
  | .compare _ dt x y => WT x && WT y && (dt == .bool)
  | .unary _ _ _ => false
  | .whereE dt c x y =>
    WT c && WT x && WT y && (x.dtype == dt) && (y.dtype == dt)
  | .constE dt v => HasIntType v dt
  | .special _ _ _ => true
  | .globalIndex _ _ bufidx => WT bufidx

/-- The context supplies fragment-typed values for every `Special` and
`GlobalIndex` leaf of the expression. -/
def CtxOk (ctx : Ctx) : AluExp → Prop
  | .binary _ _ x y => CtxOk ctx x ∧ CtxOk ctx y
  | .compare _ _ x y => CtxOk ctx x ∧ CtxOk ctx y
  | .unary _ _ x => CtxOk ctx x
  | .whereE _ c x y => CtxOk ctx c ∧ CtxOk ctx x ∧ CtxOk ctx y
  | .constE _ _ => True
  | .special dt name _ => HasIntType (ctx.vars name) dt = true
  | .globalIndex dt gid bufidx =>
    (∀ v, HasIntType (ctx.globals gid v) dt = true) ∧ CtxOk ctx bufidx

/-- A concrete `MathFns` for closed counterexamples and witnesses (its
value never matters there: no `sin`/`cos` node is involved). -/
def mfZero : MathFns := ⟨fun _ => 0, fun _ => 0⟩

/-- A concrete context for closed counterexamples. -/
def ctxZero : Ctx := ⟨fun _ => .num 0, fun _ _ => .num 0⟩

/-! ### Errors

JavaScript errors are modelled by their class and message.  The classes
appearing in the embedded code are plain `Error`, `TypeError`, and the
`SlotError` thrown by backends for an unknown slot. -/

/-- A thrown JavaScript error. -/
inductive JsError where
  | plain (message : String)
  | typeError (message : String)
  | slotError (slot : ℕ)
deriving DecidableEq, Repr

/-- Modelled from the spec: the class definition of `SlotError` lives in
`backend.ts`, which is not under src/ (only its importers are), so its
JavaScript error name is taken from the spec, whose section 7 classifies
use-after-dispose, double dispose and unknown-slot errors as
`ReferenceError`.  `Error` and `TypeError` names are standard. -/
def JsError.name : JsError → String
  | .plain _ => "Error"
  | .typeError _ => "TypeError"
  | .slotError _ => "ReferenceError"

/-! ### `View.create` from src/shape.ts -/

/-- The `View` class fields of src/shape.ts. -/
structure View where
  shape : List ℤ
  strides : List ℤ
  offset : ℤ
  mask : Option (List (ℤ × ℤ))
deriving DecidableEq, Repr

/-- `canonicalizeStrides` from src/shape.ts (call sites always pass a
strides list of the same length as the shape). -/
def canonicalizeStrides (shape strides : List ℤ) : List ℤ :=
  List.zipWith (fun s st => if s = 1 then 0 else st) shape strides

/-- `defaultStrides` from src/shape.ts: row-major strides, where entry
`i` is the product of the dimensions after `i`. -/
def defaultStrides : List ℤ → List ℤ
  | [] => []
  | _ :: rest => rest.prod :: defaultStrides rest

/-- `View.create` from src/shape.ts.  Note the final statement of the
source (line 103) is `return new View(shape, strides, 0, null)`: the
`offset` accumulated by the mask-elimination loop (lines 97–100), and
the canonicalized mask, are discarded, and the `offset` argument is
never used at all.  The embedding reproduces this faithfully; the
absorbed offset is computed (as in the source) and then dropped. -/
def viewCreate (shape : List ℤ) (stridesIn : Option (List ℤ)) (offset : ℤ)
    (mask : Option (List (ℤ × ℤ))) : Except JsError View :=
  if shape.any (fun s => s < 0) then
    .error (.plain "View shape must be non-negative")
  else
    let strides := match stridesIn with
      | some st => canonicalizeStrides shape st
      | none => defaultStrides shape
    -- Canonicalize zero-sized arrays.
    if shape.contains 0 then
      .ok ⟨shape, List.replicate shape.length 0, 0, none⟩
    else
      -- Canonicalize default mask / no mask.
      let mask1 : Option (List (ℤ × ℤ)) := match mask with
        | some m =>
          if m.length = shape.length ∧
              (m.zip shape).all (fun p => p.1.1 == 0 && p.1.2 == p.2) then
            none
          else some m
        | none => none
      match mask1 with
      | none => .ok ⟨shape, strides, 0, none⟩
      | some m =>
        let elimDims := (List.range shape.length).filter
          (fun i => (m.getD i (0, 0)).1 + 1 ≥ (m.getD i (0, 0)).2)
        let hasNoData := (List.range shape.length).any
          (fun i => (m.getD i (0, 0)).1 ≥ (m.getD i (0, 0)).2)
        if elimDims = [] then .ok ⟨shape, strides, 0, none⟩
        else
          let strides1 := if hasNoData then List.replicate shape.length (0 : ℤ)
            else strides
          let offset1 : ℤ := if hasNoData then 0 else offset
          let m1 := if hasNoData then List.replicate shape.length ((0 : ℤ), (0 : ℤ))
            else m
          let folded := elimDims.foldl
            (fun (acc : ℤ × List ℤ) i =>
              (acc.1 + acc.2.getD i 0 * (m1.getD i (0, 0)).1, acc.2.set i 0))
            (offset1, strides1)
          -- `folded.1` is the absorbed offset of lines 97–100; line 103
          -- returns `new View(shape, strides, 0, null)`, dropping it.
          .ok ⟨shape, folded.2, 0, none⟩

/-! ### JVP rules for `Min` and `Max`

Scalar (per-element) semantics of the primitives the rules compose:
`less` is elementwise `<`, `where` selects by a boolean condition,
`min`/`max` are elementwise minimum/maximum, and `.ref` marks are
reference-count bookkeeping with no effect on values. -/

/-- Scalar semantics of the `less` primitive. -/
def lessP (x y : ℚ) : Bool := decide (x < y)

/-- Scalar semantics of the `where` primitive. -/
def whereP (c : Bool) (a b : ℚ) : ℚ := if c then a else b

/-- Scalar semantics of the `min` primitive. -/
def minP (x y : ℚ) : ℚ := min x y

/-- Scalar semantics of the `max` primitive. -/
def maxP (x y : ℚ) : ℚ := max x y

/-- `jvpRules[Primitive.Min]` (frontend jvp.ts, lines 126–128): primal
`min(x.ref, y.ref)`, tangent `where(less(y, x), dy, dx)`. -/
def jvpMin (x dx y dy : ℚ) : ℚ × ℚ := (minP x y, whereP (lessP y x) dy dx)

/-- `jvpRules[Primitive.Max]` (frontend jvp.ts, lines 129–131): primal
`max(x.ref, y.ref)`, tangent `where(less(y, x), dx, dy)`. -/
def jvpMax (x dx y dy : ℚ) : ℚ × ℚ := (maxP x y, whereP (lessP y x) dx dy)

/-! ### vmap: the `ReduceSum` batching rule and `vmapFlat` validation -/

/-- The axis arithmetic of `vmapRules[Primitive.ReduceSum]` from
src/core.ts lines 711–723: with an unbatched input the axes pass
through and the output is unbatched; with batch axis `b` the rule calls
`reduceSum` on `axis.map((ax) => ax + (xBdim <= ax ? 1 : 0))` and
declares the output batched at
`xBdim - axis.filter((ax) => ax < xBdim).length`. -/
def vmapReduceSumRule (xBdim : Option ℤ) (axis : List ℤ) :
    List ℤ × Option ℤ :=
  match xBdim with
  | none => (axis, none)
  | some b =>
    (axis.map (fun ax => ax + if b ≤ ax then 1 else 0),
      some (b - ((axis.filter (fun ax => ax < b)).length : ℤ)))

/-- The output-shape rule of `abstractEvalRules[Primitive.ReduceSum]`
(src/core.ts lines 1009–1013): keep the dimensions whose index is not in
the axis set. -/
def reduceSumShape (shape : List ℕ) (axis : List ℤ) : List ℕ :=
  ((shape.enum.filter (fun p => ¬ axis.contains (p.1 : ℤ))).map Prod.snd)

/-- An argument to a vmap-transformed function: a `Tracer` carrying a
shape, or a plain scalar (`number`/`boolean`). -/
inductive VArg where
  | tracer (shape : List ℕ)
  | scalar
deriving DecidableEq, Repr

/-- JavaScript `arg.shape[inAxes[i]]`: `undefined` (`none`) when the
index is negative or out of bounds. -/
def shapeAt (shape : List ℕ) (ax : ℤ) : Option ℕ :=
  if ax < 0 then none else shape.get? ax.toNat

/-- The axis-size scan loop of `vmapFlat` (src/core.ts lines 731–747).
The accumulator is the JS `axisSize` local, `none` being `undefined`;
entries whose `inAxes` value is `null` are skipped; a mapped non-Tracer
argument throws; otherwise `size = arg.shape[inAxes[i]]` is compared
against the accumulator. -/
def vmapSizeLoop : Option ℕ → List (Option ℤ × VArg) → Except JsError (Option ℕ)
  | acc, [] => .ok acc
  | acc, (none, _) :: rest => vmapSizeLoop acc rest
  | _, (some _, .scalar) :: _ =>
    .error (.typeError "vmap requires Tracer argument for mapped axes")
  | acc, (some ax, .tracer shape) :: rest =>
    let size := shapeAt shape ax
    if acc = none then vmapSizeLoop size rest
    else if acc ≠ size then
      .error (.typeError "vmap requires all mapped axes to have the same size")
    else vmapSizeLoop acc rest

/-- The full axis-size validation of `vmapFlat`: run the scan, then fail
if no axis was mapped (src/core.ts lines 748–750). -/
def vmapFlatAxisSize (args : List (Option ℤ × VArg)) : Except JsError ℕ :=
  match vmapSizeLoop none args with
  | .error e => .error e
  | .ok none => .error (.typeError "vmap requires at least one mapped axis")
  | .ok (some n) => .ok n

/-! ### The random module: `uniform` (two revisions are in the repo) -/

/-- Modelled from the spec: `bitcast(x, Float32)` and the bit generator
`randomBits` live in `frontend/core.ts`, which is not under src/.  This
is the IEEE-754 binary32 reading of the bit pattern `0x3f800000 + m`
for a mantissa `0 ≤ m < 2^23` (sign 0, exponent 127): the value
`1 + m / 2^23`, exactly as the spec describes the `uniform` derivation
("Add 1.0 in IEEE 754, now it is a float in [1, 2)"). -/
def float32OfOnePlusMantissa (m : ℕ) : ℚ := 1 + (m : ℚ) / 2 ^ 23

/-- Per-sample semantics of `uniform` from the part_001 revision of the
random module, applied to one 32-bit output `u` of `bits(key, shape)`:
divide by `1 << 9` (uint32 integer division), add `0x3f800000`, bitcast
to float32, subtract 1, and map affinely onto `[minval, maxval)`.  All
steps up to the affine map are exact in float32; the affine map is
modelled in exact arithmetic. -/
def uniformSample (u : ℕ) (minval maxval : ℚ) : Except JsError ℚ :=
  if minval ≥ maxval then .error (.plain "Invalid range")
  else
    let mantissa := u / 2 ^ 9
    let float12 := float32OfOnePlusMantissa mantissa
    let rand := float12 - 1
    if minval = 0 ∧ maxval = 1 then .ok rand
    else .ok (rand * (maxval - minval) + minval)

/-- Per-sample semantics of `uniform` from the part_007 revision: the
body is `void key; void maxval; return full(shape, minval, ...)`, so
every sample is the constant `minval`, independent of the key bits and
of `maxval`. -/
def uniformStub (_u : ℕ) (minval _maxval : ℚ) : ℚ := minval

/-! ### The CPU backend: reference-counted slots (part_003) -/

/-- One entry of `CPUBackend.buffers`: a reference count and the
buffer bytes. -/
structure BufEntry where
  ref : ℤ
  buffer : List UInt8
deriving DecidableEq, Repr

/-- `CPUBackend` state: the slot map and the `nextSlot` counter.  The
JS `Map<Slot, ...>` is modelled as a partial function (the code never
iterates it). -/
structure CPUBackend where
  buffers : ℕ → Option BufEntry
  nextSlot : ℕ

/-- The `CPUBackend` constructor: empty map, `nextSlot = 1`. -/
def CPUBackend.init : CPUBackend := ⟨fun _ => none, 1⟩

/-- `CPUBackend.malloc`: a fresh buffer (zeroed, or a copy of
`initialData` whose length must match) registered with refcount 1 at
slot `nextSlot`, which is then incremented. -/
def malloc (size : ℕ) (initialData : Option (List UInt8)) (st : CPUBackend) :
    Except JsError (ℕ × CPUBackend) :=
  let mk : List UInt8 → ℕ × CPUBackend := fun data =>
    (st.nextSlot,
      ⟨fun s => if s = st.nextSlot then some ⟨1, data⟩ else st.buffers s,
        st.nextSlot + 1⟩)
  match initialData with
  | some d =>
    if d.length ≠ size then
      .error (.plain "initialData size does not match buffer size")
    else .ok (mk d)
  | none => .ok (mk (List.replicate size 0))

/-- `CPUBackend.incRef`: unknown slot throws `SlotError`, else the
count is incremented. -/
def incRef (slot : ℕ) (st : CPUBackend) : Except JsError CPUBackend :=
  match st.buffers slot with
  | none => .error (.slotError slot)
  | some e =>
    .ok ⟨fun s => if s = slot then some ⟨e.ref + 1, e.buffer⟩ else st.buffers s,
      st.nextSlot⟩

/-- `CPUBackend.decRef`: unknown slot throws `SlotError`, else the
count is decremented and the entry is deleted exactly when it reaches
zero. -/
def decRef (slot : ℕ) (st : CPUBackend) : Except JsError CPUBackend :=
  match st.buffers slot with
  | none => .error (.slotError slot)
  | some e =>
    if e.ref - 1 = 0 then
      .ok ⟨fun s => if s = slot then none else st.buffers s, st.nextSlot⟩
    else
      .ok ⟨fun s => if s = slot then some ⟨e.ref - 1, e.buffer⟩ else st.buffers s,
        st.nextSlot⟩

/-- `CPUBackend.readSync`: unknown slot throws `SlotError`, else the
byte range (`start` defaults to 0, `count` to the rest; JS
`ArrayBuffer.slice` clamps, as `drop`/`take` do). -/
def readSync (slot : ℕ) (start count : Option ℕ) (st : CPUBackend) :
    Except JsError (List UInt8) :=
  match st.buffers slot with
  | none => .error (.slotError slot)
  | some e =>
    let s := start.getD 0
    let c := count.getD (e.buffer.length - s)
    .ok ((e.buffer.drop s).take c)

/-! ### The lazy `Array.#binary` of src/array.ts -/

/-- The state of a lazy array relevant to `#binary`: its shape (from the
shape tracker), dtype, and whether `#source` is an `AluExp` (vs a
`Slot`). -/
structure LazyArray where
  shape : List ℕ
  dtype : DType
  sourceIsExp : Bool
deriving DecidableEq, Repr

/-- `Array.#binary` from src/array.ts lines 106–148: `deepEqual` shape
check (an error mentioning the op is thrown on mismatch; no
broadcasting), strict dtype equality (no promotion), then either the
`AluExp` short-circuit (result over `this.#st`, whose shape is
`this.shape`) or the slot path (result over
`ShapeTracker.fromShape(this.shape)`); both give the result
`this.shape` and `this.dtype`. -/
def arrayBinary (op : BinOp) (a b : LazyArray) : Except JsError LazyArray :=
  if a.shape ≠ b.shape then .error (.plain ("Shape mismatch in " ++ reprStr op))
  else if a.dtype ≠ b.dtype then .error (.plain ("Dtype mismatch in " ++ reprStr op))
  else if a.sourceIsExp && b.sourceIsExp then .ok ⟨a.shape, a.dtype, true⟩
  else .ok ⟨a.shape, a.dtype, false⟩

/-- `Array.add`. -/
def arrayAdd (a b : LazyArray) : Except JsError LazyArray := arrayBinary .add a b

/-- `Array.sub`. -/
def arraySub (a b : LazyArray) : Except JsError LazyArray := arrayBinary .sub a b

/-- `Array.mul`. -/
def arrayMul (a b : LazyArray) : Except JsError LazyArray := arrayBinary .mul a b

/-! ### Inversion helpers -/

lemma constArg_eq_some {e : AluExp} {v : Val} :
    constArg e = some v ↔ ∃ dt, e = .constE dt v := by
  cases e <;> simp [constArg, eq_comm]

lemma isIntNum_iff {v : Val} :
    v.isIntNum = true ↔ ∃ n : ℤ, v = .num (n : ℚ) := by
  cases v with
  | num q =>
    simp only [Val.isIntNum, beq_iff_eq, Val.num.injEq]
    constructor
    · intro h
      exact ⟨q.num, ((Rat.den_eq_one_iff q).mp h).symm⟩
    · rintro ⟨n, rfl⟩
      exact Rat.den_intCast n
  | bool b => simp [Val.isIntNum]

lemma isBool_iff {v : Val} : v.isBool = true ↔ ∃ b, v = .bool b := by
  cases v <;> simp [Val.isBool]

lemma hasIntType_bool {v : Val} (h : HasIntType v .bool = true) :
    ∃ b, v = .bool b := by
  rw [HasIntType, if_pos rfl] at h
  exact isBool_iff.mp h

lemma hasIntType_num {v : Val} {dt : DType} (hdt : dt ≠ .bool)
    (h : HasIntType v dt = true) : ∃ n : ℤ, v = .num (n : ℚ) := by
  rw [HasIntType, if_neg hdt] at h
  exact isIntNum_iff.mp h

lemma hasIntType_num_not_bool {q : ℚ} {dt : DType}
    (h : HasIntType (.num q) dt = true) : dt ≠ .bool := by
  intro hdt
  subst hdt
  rw [HasIntType, if_pos rfl] at h
  simp [Val.isBool] at h

lemma hasIntType_intCast {n : ℤ} {dt : DType} (hdt : dt ≠ .bool) :
    HasIntType (.num (n : ℚ)) dt = true := by
  rw [HasIntType, if_neg hdt]
  exact isIntNum_iff.mpr ⟨n, rfl⟩

/-! ### Floor division and truncated remainder over the integers -/

lemma floor_intCast_div_pos (x y : ℤ) (hy : 0 < y) :
    ⌊(x : ℚ) / (y : ℚ)⌋ = x / y := by
  lift y to ℕ using hy.le with n
  rw [show (((n : ℕ) : ℤ) : ℚ) = ((n : ℕ) : ℚ) by push_cast; ring]
  exact Rat.floor_intCast_div_natCast x n

lemma fdiv_neg_neg (x y : ℤ) : (-x).fdiv (-y) = x.fdiv y := by
  rcases x with (_ | k) | k <;> rcases y with (_ | n) | n <;>
    simp only [Int.neg_ofNat_succ, Int.neg_negSucc, Int.ofNat_eq_coe, Nat.cast_zero,
      neg_zero, Nat.cast_succ] <;>
    first
    | rfl
    | simp [Int.fdiv_zero]

/-- `Math.floor(x / y)` on integer operands is `Int.fdiv`. -/
lemma floor_intCast_div_fdiv (x y : ℤ) (hy : y ≠ 0) :
    ⌊(x : ℚ) / (y : ℚ)⌋ = x.fdiv y := by
  rcases hy.lt_or_lt with h | h
  · have h2 : (0 : ℤ) < -y := by omega
    have e1 : (x : ℚ) / (y : ℚ) = ((-x : ℤ) : ℚ) / ((-y : ℤ) : ℚ) := by
      push_cast
      rw [neg_div_neg_eq]
    rw [e1, floor_intCast_div_pos _ _ h2, ← Int.fdiv_eq_ediv (-x) h2.le, fdiv_neg_neg]
  · rw [floor_intCast_div_pos _ _ h, ← Int.fdiv_eq_ediv _ h.le]

/-- JavaScript truncation of an integer quotient is `Int.tdiv`. -/
lemma jsTrunc_intCast_div (x y : ℤ) (hy : y ≠ 0) :
    jsTrunc ((x : ℚ) / (y : ℚ)) = x.tdiv y := by
  unfold jsTrunc
  split_ifs with hq
  · rcases div_nonneg_iff.mp hq with ⟨hx, hy2⟩ | ⟨hx, hy2⟩
    · have hx0 : (0 : ℤ) ≤ x := by exact_mod_cast hx
      have hy0 : (0 : ℤ) ≤ y := by exact_mod_cast hy2
      rw [Int.tdiv_eq_ediv hx0 hy0, floor_intCast_div_pos _ _ (by omega)]
    · have hx0 : x ≤ 0 := by exact_mod_cast hx
      have hy0 : y ≤ 0 := by exact_mod_cast hy2
      have h2 : (0 : ℤ) < -y := by omega
      have e1 : (x : ℚ) / (y : ℚ) = ((-x : ℤ) : ℚ) / ((-y : ℤ) : ℚ) := by
        push_cast
        rw [neg_div_neg_eq]
      rw [e1, floor_intCast_div_pos _ _ h2,
        ← Int.tdiv_eq_ediv (by omega : (0 : ℤ) ≤ -x) h2.le]
      rw [show x.tdiv y = (-x).tdiv (-y) by rw [Int.tdiv_neg, Int.neg_tdiv, neg_neg]]
  · push_neg at hq
    rcases div_neg_iff.mp hq with ⟨hx, hy2⟩ | ⟨hx, hy2⟩
    · have hx0 : (0 : ℤ) < x := by exact_mod_cast hx
      have hy0 : y < 0 := by exact_mod_cast hy2
      have e1 : -((x : ℚ) / (y : ℚ)) = ((x : ℤ) : ℚ) / ((-y : ℤ) : ℚ) := by
        push_cast
        rw [div_neg]
      rw [e1, floor_intCast_div_pos _ _ (by omega : (0 : ℤ) < -y),
        ← Int.tdiv_eq_ediv hx0.le (by omega : (0 : ℤ) ≤ -y), Int.tdiv_neg, neg_neg]
    · have hx0 : x < 0 := by exact_mod_cast hx
      have hy0 : (0 : ℤ) < y := by exact_mod_cast hy2
      have e1 : -((x : ℚ) / (y : ℚ)) = ((-x : ℤ) : ℚ) / ((y : ℤ) : ℚ) := by
        push_cast
        rw [neg_div]
      rw [e1, floor_intCast_div_pos _ _ hy0,
        ← Int.tdiv_eq_ediv (by omega : (0 : ℤ) ≤ -x) hy0.le, Int.neg_tdiv, neg_neg]

/-- The truncated remainder in terms of truncated division. -/
lemma tmod_eq_sub (x y : ℤ) : x.tmod y = x - y * x.tdiv y := by
  have := Int.tmod_add_tdiv x y
  linarith

/-! ### Typing: well-typed expressions evaluate to fragment values -/

lemma evaluate_hasIntType (mf : MathFns) (ctx : Ctx) :
    ∀ e : AluExp, WT e = true → CtxOk ctx e →
      HasIntType (evaluate mf ctx e) e.dtype = true := by
  intro e
  induction e with
  | binary op dt x y ihx ihy =>
    intro hw hc
    simp only [WT, Bool.and_eq_true, beq_iff_eq, Bool.or_eq_true,
      Bool.not_eq_true', beq_eq_false_iff_ne] at hw
    obtain ⟨⟨⟨⟨hwx, hwy⟩, hdx⟩, hdy⟩, hop⟩ := hw
    obtain ⟨hcx, hcy⟩ := hc
    have tx := ihx hwx hcx
    have ty := ihy hwy hcy
    rw [hdx] at tx
    rw [hdy] at ty
    by_cases hbool : dt = .bool
    · subst hbool
      obtain ⟨bx, hbx⟩ := hasIntType_bool tx
      obtain ⟨by', hby⟩ := hasIntType_bool ty
      rcases hop.resolve_left (fun h => h rfl) with rfl | rfl <;>
        cases bx <;>
          simp [evaluate, AluExp.dtype, evalBinary, jsOr, jsAnd, hbx, hby,
            Val.truthy, HasIntType, Val.isBool]
    · obtain ⟨nx, hnx⟩ := hasIntType_num hbool tx
      obtain ⟨ny, hny⟩ := hasIntType_num hbool ty
      cases op <;>
        simp only [evaluate, AluExp.dtype, evalBinary, if_neg hbool, hnx, hny,
          Val.toNum, jsMod]
      · exact (by push_cast; ring : ((nx + ny : ℤ) : ℚ) = (nx : ℚ) + ny) ▸
          hasIntType_intCast hbool
      · exact (by push_cast; ring : ((nx - ny : ℤ) : ℚ) = (nx : ℚ) - ny) ▸
          hasIntType_intCast hbool
      · exact (by push_cast; ring : ((nx * ny : ℤ) : ℚ) = (nx : ℚ) * ny) ▸
          hasIntType_intCast hbool
      · exact hasIntType_intCast hbool
      · exact (by push_cast; ring :
            ((nx - ny * jsTrunc ((nx : ℚ) / (ny : ℚ)) : ℤ) : ℚ) =
              (nx : ℚ) - (ny : ℚ) * (jsTrunc ((nx : ℚ) / (ny : ℚ)) : ℚ)) ▸
          hasIntType_intCast hbool
  | compare op dt x y ihx ihy =>
    intro hw _
    simp only [WT, Bool.and_eq_true, beq_iff_eq] at hw
    obtain ⟨⟨_, _⟩, rfl⟩ := hw
    cases op <;> simp [evaluate, AluExp.dtype, evalCompare, HasIntType, Val.isBool]
  | unary op dt x ih =>
    intro hw _
    simp [WT] at hw
  | whereE dt c x y ihc ihx ihy =>
    intro hw hc
    simp only [WT, Bool.and_eq_true, beq_iff_eq] at hw
    obtain ⟨⟨⟨⟨hwc, hwx⟩, hwy⟩, hdx⟩, hdy⟩ := hw
    obtain ⟨hcc, hcx, hcy⟩ := hc
    simp only [evaluate, AluExp.dtype]
    split
    · exact hdx ▸ ihx hwx hcx
    · exact hdy ▸ ihy hwy hcy
  | constE dt v =>
    intro hw _
    simpa [evaluate, AluExp.dtype, WT] using hw
  | special dt name n =>
    intro _ hc
    simpa [evaluate, AluExp.dtype, CtxOk] using hc
  | globalIndex dt gid bufidx ih =>
    intro hw hc
    exact hc.1 _

/-! ### Unpacking lemmas for `WT` and `CtxOk` -/

lemma WT_binary_iff {op : BinOp} {dt : DType} {x y : AluExp} :
    WT (.binary op dt x y) = true ↔
      WT x = true ∧ WT y = true ∧ x.dtype = dt ∧ y.dtype = dt ∧
        (dt = .bool → op = .add ∨ op = .mul) := by
  simp only [WT, Bool.and_eq_true, beq_iff_eq, Bool.or_eq_true,
    Bool.not_eq_true', beq_eq_false_iff_ne, ← imp_iff_not_or, and_assoc]

lemma WT_whereE_iff {dt : DType} {c x y : AluExp} :
    WT (.whereE dt c x y) = true ↔
      WT c = true ∧ WT x = true ∧ WT y = true ∧ x.dtype = dt ∧ y.dtype = dt := by
  simp only [WT, Bool.and_eq_true, beq_iff_eq, and_assoc]

lemma WT_compare_iff {op : CmpOp} {dt : DType} {x y : AluExp} :
    WT (.compare op dt x y) = true ↔
      WT x = true ∧ WT y = true ∧ dt = .bool := by
  simp only [WT, Bool.and_eq_true, beq_iff_eq, and_assoc]

lemma CtxOk_binary {ctx : Ctx} {op : BinOp} {dt : DType} {x y : AluExp} :
    CtxOk ctx (.binary op dt x y) ↔ CtxOk ctx x ∧ CtxOk ctx y := Iff.rfl

lemma CtxOk_of_const {ctx : Ctx} {e : AluExp} {v : Val}
    (h : constArg e = some v) : CtxOk ctx e := by
  obtain ⟨cdt, rfl⟩ := constArg_eq_some.mp h
  trivial

/-! ### The `x ± (-1 * y)` rewrite: inversion -/

lemma rewriteNegMul_eq_some {op : BinOp} {dt : DType} {x y e : AluExp}
    (h : rewriteNegMul op dt x y = some e) :
    (op = .add ∨ op = .sub) ∧
      ∃ mdt ma mb, y = .binary .mul mdt ma mb ∧
        ((∃ cdt, ma = .constE cdt (.num (-1)) ∧ e = .binary (opNeg op) dt x mb) ∨
          (∃ cdt, mb = .constE cdt (.num (-1)) ∧ e = .binary (opNeg op) dt x ma)) := by
  unfold rewriteNegMul at h
  split_ifs at h with hops
  · refine ⟨hops, ?_⟩
    cases y with
    | binary yop mdt ma mb =>
      cases yop with
      | mul =>
        refine ⟨mdt, ma, mb, rfl, ?_⟩
        dsimp only at h
        split_ifs at h with hma hmb
        · obtain ⟨cdt, rfl⟩ := constArg_eq_some.mp hma
          exact Or.inl ⟨cdt, rfl, (Option.some.inj h).symm⟩
        · obtain ⟨cdt, rfl⟩ := constArg_eq_some.mp hmb
          exact Or.inr ⟨cdt, rfl, (Option.some.inj h).symm⟩
      | add => exact absurd h (by simp)
      | sub => exact absurd h (by simp)
      | idiv => exact absurd h (by simp)
      | mod => exact absurd h (by simp)
    | compare cop cdt a b => exact absurd h (by simp)
    | unary uop udt a => exact absurd h (by simp)
    | whereE wdt c a b => exact absurd h (by simp)
    | constE cdt v => exact absurd h (by simp)
    | special sdt name n => exact absurd h (by simp)
    | globalIndex gdt gid bufidx => exact absurd h (by simp)

/-! ### `simplifyBinary` preserves typing, contexts, and semantics -/

lemma simplifyBinary_WT {mf : MathFns} {op : BinOp} {dt : DType} {x y : AluExp}
    (hwx : WT x = true) (hwy : WT y = true)
    (hdx : x.dtype = dt) (hdy : y.dtype = dt)
    (hop : dt = .bool → op = .add ∨ op = .mul) :
    WT (simplifyBinary mf op dt x y) = true ∧
      (simplifyBinary mf op dt x y).dtype = dt := by
  unfold simplifyBinary
  split_ifs with h1 h2 h3 h4 h5 h6 h7 h8
  · exact ⟨hwy, hdy⟩
  · exact ⟨hwy, hdy⟩
  · obtain ⟨rfl, hcst⟩ := h3
    obtain ⟨cdt, rfl⟩ := constArg_eq_some.mp hcst
    have hcdt : cdt = dt := hdx
    have hx : HasIntType (.num 0) cdt = true := by simpa [WT] using hwx
    rw [hcdt] at hx
    exact ⟨by simpa [WT] using hx, rfl⟩
  · exact ⟨hwx, hdx⟩
  · exact ⟨hwx, hdx⟩
  · exact ⟨hwx, hdx⟩
  · obtain ⟨rfl, hcst⟩ := h7
    obtain ⟨cdt, rfl⟩ := constArg_eq_some.mp hcst
    have hcdt : cdt = dt := hdy
    have hy : HasIntType (.num 0) cdt = true := by simpa [WT] using hwy
    rw [hcdt] at hy
    exact ⟨by simpa [WT] using hy, rfl⟩
  · exact ⟨hwx, hdx⟩
  · split
    next e heq =>
      obtain ⟨hops, mdt, ma, mb, rfl, hcase⟩ := rewriteNegMul_eq_some heq
      have hmdt : mdt = dt := hdy
      obtain ⟨hwma, hwmb, hdma, hdmb, -⟩ := WT_binary_iff.mp hwy
      rcases hcase with ⟨cdt, rfl, rfl⟩ | ⟨cdt, rfl, rfl⟩
      · have hne : dt ≠ .bool := by
          have hc : cdt = mdt := hdma
          rw [← hmdt, ← hc]
          exact hasIntType_num_not_bool (by simpa [WT] using hwma)
        refine ⟨WT_binary_iff.mpr ⟨hwx, hwmb, hdx, hmdt ▸ hdmb,
          fun h => absurd h hne⟩, rfl⟩
      · have hne : dt ≠ .bool := by
          have hc : cdt = mdt := hdmb
          rw [← hmdt, ← hc]
          exact hasIntType_num_not_bool (by simpa [WT] using hwmb)
        refine ⟨WT_binary_iff.mpr ⟨hwx, hwma, hdx, hmdt ▸ hdma,
          fun h => absurd h hne⟩, rfl⟩
    next heq =>
      unfold foldOrRebuild
      split_ifs with hfold
      · obtain ⟨hcstx, hcsty⟩ := hfold
        obtain ⟨vx, hvx⟩ := Option.isSome_iff_exists.mp hcstx
        obtain ⟨vy, hvy⟩ := Option.isSome_iff_exists.mp hcsty
        have hwt : WT (.binary op dt x y) = true :=
          WT_binary_iff.mpr ⟨hwx, hwy, hdx, hdy, hop⟩
        have hck : CtxOk emptyCtx (.binary op dt x y) :=
          ⟨CtxOk_of_const hvx, CtxOk_of_const hvy⟩
        exact ⟨evaluate_hasIntType _ _ _ hwt hck, rfl⟩
      · exact ⟨WT_binary_iff.mpr ⟨hwx, hwy, hdx, hdy, hop⟩, rfl⟩

lemma simplifyBinary_CtxOk {mf : MathFns} {ctx : Ctx} {op : BinOp} {dt : DType}
    {x y : AluExp} (hcx : CtxOk ctx x) (hcy : CtxOk ctx y) :
    CtxOk ctx (simplifyBinary mf op dt x y) := by
  unfold simplifyBinary
  split_ifs with h1 h2 h3 h4 h5 h6 h7 h8
  · exact hcy
  · exact hcy
  · trivial
  · exact hcx
  · exact hcx
  · exact hcx
  · trivial
  · exact hcx
  · split
    next e heq =>
      obtain ⟨hops, mdt, ma, mb, rfl, hcase⟩ := rewriteNegMul_eq_some heq
      obtain ⟨hma, hmb⟩ := (CtxOk_binary).mp hcy
      rcases hcase with ⟨cdt, rfl, rfl⟩ | ⟨cdt, rfl, rfl⟩
      · exact ⟨hcx, hmb⟩
      · exact ⟨hcx, hma⟩
    next heq =>
      unfold foldOrRebuild
      split_ifs with hfold
      · trivial
      · exact ⟨hcx, hcy⟩

lemma simplifyBinary_evaluate (mf : MathFns) (ctx : Ctx) {op : BinOp} {dt : DType}
    {x y : AluExp}
    (hwx : WT x = true) (hwy : WT y = true)
    (hdx : x.dtype = dt) (hdy : y.dtype = dt)
    (hcx : CtxOk ctx x) (hcy : CtxOk ctx y) :
    evaluate mf ctx (simplifyBinary mf op dt x y) =
      evalBinary op dt (evaluate mf ctx x) (evaluate mf ctx y) := by
  have tx := hdx ▸ evaluate_hasIntType mf ctx x hwx hcx
  have ty := hdy ▸ evaluate_hasIntType mf ctx y hwy hcy
  unfold simplifyBinary
  split_ifs with h1 h2 h3 h4 h5 h6 h7 h8
  · -- x + 0-on-the-left ⇒ y
    obtain ⟨rfl, hcst⟩ := h1
    obtain ⟨cdt, rfl⟩ := constArg_eq_some.mp hcst
    have hcdt : cdt = dt := hdx
    have hne : dt ≠ .bool := hcdt ▸ hasIntType_num_not_bool (by simpa [WT] using hwx)
    obtain ⟨ny, hny⟩ := hasIntType_num hne ty
    simp [evaluate, evalBinary, if_neg hne, hny, Val.toNum]
  · -- 1 * y ⇒ y
    obtain ⟨rfl, hcst⟩ := h2
    obtain ⟨cdt, rfl⟩ := constArg_eq_some.mp hcst
    have hcdt : cdt = dt := hdx
    have hne : dt ≠ .bool := hcdt ▸ hasIntType_num_not_bool (by simpa [WT] using hwx)
    obtain ⟨ny, hny⟩ := hasIntType_num hne ty
    simp [evaluate, evalBinary, if_neg hne, hny, Val.toNum]
  · -- 0 * y ⇒ 0
    obtain ⟨rfl, hcst⟩ := h3
    obtain ⟨cdt, rfl⟩ := constArg_eq_some.mp hcst
    have hcdt : cdt = dt := hdx
    have hne : dt ≠ .bool := hcdt ▸ hasIntType_num_not_bool (by simpa [WT] using hwx)
    obtain ⟨ny, hny⟩ := hasIntType_num hne ty
    simp [evaluate, evalBinary, if_neg hne, hny, Val.toNum]
  · -- x + 0 ⇒ x
    obtain ⟨rfl, hcst⟩ := h4
    obtain ⟨cdt, rfl⟩ := constArg_eq_some.mp hcst
    have hcdt : cdt = dt := hdy
    have hne : dt ≠ .bool := hcdt ▸ hasIntType_num_not_bool (by simpa [WT] using hwy)
    obtain ⟨nx, hnx⟩ := hasIntType_num hne tx
    simp [evaluate, evalBinary, if_neg hne, hnx, Val.toNum]
  · -- x - 0 ⇒ x
    obtain ⟨rfl, hcst⟩ := h5
    obtain ⟨cdt, rfl⟩ := constArg_eq_some.mp hcst
    have hcdt : cdt = dt := hdy
    have hne : dt ≠ .bool := hcdt ▸ hasIntType_num_not_bool (by simpa [WT] using hwy)
    obtain ⟨nx, hnx⟩ := hasIntType_num hne tx
    simp [evaluate, evalBinary, hnx, Val.toNum]
  · -- x * 1 ⇒ x
    obtain ⟨rfl, hcst⟩ := h6
    obtain ⟨cdt, rfl⟩ := constArg_eq_some.mp hcst
    have hcdt : cdt = dt := hdy
    have hne : dt ≠ .bool := hcdt ▸ hasIntType_num_not_bool (by simpa [WT] using hwy)
    obtain ⟨nx, hnx⟩ := hasIntType_num hne tx
    simp [evaluate, evalBinary, if_neg hne, hnx, Val.toNum]
  · -- x * 0 ⇒ 0
    obtain ⟨rfl, hcst⟩ := h7
    obtain ⟨cdt, rfl⟩ := constArg_eq_some.mp hcst
    have hcdt : cdt = dt := hdy
    have hne : dt ≠ .bool := hcdt ▸ hasIntType_num_not_bool (by simpa [WT] using hwy)
    obtain ⟨nx, hnx⟩ := hasIntType_num hne tx
    simp [evaluate, evalBinary, if_neg hne, hnx, Val.toNum]
  · -- x idiv 1 ⇒ x
    obtain ⟨rfl, hcst⟩ := h8
    obtain ⟨cdt, rfl⟩ := constArg_eq_some.mp hcst
    have hcdt : cdt = dt := hdy
    have hne : dt ≠ .bool := hcdt ▸ hasIntType_num_not_bool (by simpa [WT] using hwy)
    obtain ⟨nx, hnx⟩ := hasIntType_num hne tx
    simp [evaluate, evalBinary, hnx, Val.toNum]
  · split
    next e heq =>
      obtain ⟨hops, mdt, ma, mb, rfl, hcase⟩ := rewriteNegMul_eq_some heq
      have hmdt : mdt = dt := hdy
      obtain ⟨hwma, hwmb, hdma, hdmb, -⟩ := WT_binary_iff.mp hwy
      rcases hcase with ⟨cdt, rfl, rfl⟩ | ⟨cdt, rfl, rfl⟩
      · have hcdt : cdt = mdt := hdma
        have hne : dt ≠ .bool :=
          hmdt ▸ hcdt ▸ hasIntType_num_not_bool (by simpa [WT] using hwma)
        have hnem : mdt ≠ .bool := by rw [hmdt]; exact hne
        rcases hops with rfl | rfl <;>
          simp [evaluate, evalBinary, opNeg, if_neg hne, if_neg hnem,
            Val.toNum] <;> ring
      · have hcdt : cdt = mdt := hdmb
        have hne : dt ≠ .bool :=
          hmdt ▸ hcdt ▸ hasIntType_num_not_bool (by simpa [WT] using hwmb)
        have hnem : mdt ≠ .bool := by rw [hmdt]; exact hne
        rcases hops with rfl | rfl <;>
          simp [evaluate, evalBinary, opNeg, if_neg hne, if_neg hnem,
            Val.toNum] <;> ring
    next heq =>
      unfold foldOrRebuild
      split_ifs with hfold
      · obtain ⟨hcstx, hcsty⟩ := hfold
        obtain ⟨vx, hvx⟩ := Option.isSome_iff_exists.mp hcstx
        obtain ⟨vy, hvy⟩ := Option.isSome_iff_exists.mp hcsty
        obtain ⟨cx, rfl⟩ := constArg_eq_some.mp hvx
        obtain ⟨cy, rfl⟩ := constArg_eq_some.mp hvy
        simp [evaluate]
      · rfl

/-! ### `simplify` preserves typing, dtypes, contexts, and semantics -/

lemma simplify_WT (mf : MathFns) :
    ∀ e : AluExp, WT e = true →
      WT (simplify mf e) = true ∧ (simplify mf e).dtype = e.dtype := by
  intro e
  induction e with
  | binary op dt x y ihx ihy =>
    intro hw
    obtain ⟨hwx, hwy, hdx, hdy, hop⟩ := WT_binary_iff.mp hw
    obtain ⟨hwx', hdx'⟩ := ihx hwx
    obtain ⟨hwy', hdy'⟩ := ihy hwy
    rw [simplify]
    exact simplifyBinary_WT hwx' hwy' (hdx' ▸ hdx) (hdy' ▸ hdy) hop
  | compare op dt x y ihx ihy =>
    intro hw
    obtain ⟨hwx, hwy, rfl⟩ := WT_compare_iff.mp hw
    obtain ⟨hwx', hdx'⟩ := ihx hwx
    obtain ⟨hwy', hdy'⟩ := ihy hwy
    rw [simplify]
    split_ifs with hfold
    · constructor
      · show HasIntType _ _ = true
        cases op <;> simp [evaluate, evalCompare, HasIntType, Val.isBool]
      · rfl
    · exact ⟨WT_compare_iff.mpr ⟨hwx', hwy', rfl⟩, rfl⟩
  | unary op dt x ih =>
    intro hw
    simp [WT] at hw
  | whereE dt c x y ihc ihx ihy =>
    intro hw
    obtain ⟨hwc, hwx, hwy, hdx, hdy⟩ := WT_whereE_iff.mp hw
    obtain ⟨hwc', hdc'⟩ := ihc hwc
    obtain ⟨hwx', hdx'⟩ := ihx hwx
    obtain ⟨hwy', hdy'⟩ := ihy hwy
    rw [simplify]
    cases hcv : constArg (simplify mf c) with
    | some v =>
      simp only
      split_ifs with htr
      · exact ⟨hwx', hdx' ▸ hdx⟩
      · exact ⟨hwy', hdy' ▸ hdy⟩
    | none =>
      exact ⟨WT_whereE_iff.mpr ⟨hwc', hwx', hwy', hdx' ▸ hdx, hdy' ▸ hdy⟩, rfl⟩
  | constE dt v =>
    intro hw
    exact ⟨hw, rfl⟩
  | special dt name n =>
    intro hw
    rw [simplify]
    exact ⟨rfl, rfl⟩
  | globalIndex dt gid bufidx ih =>
    intro hw
    rw [simplify]
    exact ⟨(ih hw).1, rfl⟩

lemma CtxOk_simplify (mf : MathFns) (ctx : Ctx) :
    ∀ e : AluExp, CtxOk ctx e → CtxOk ctx (simplify mf e) := by
  intro e
  induction e with
  | binary op dt x y ihx ihy =>
    intro hc
    rw [simplify]
    exact simplifyBinary_CtxOk (ihx hc.1) (ihy hc.2)
  | compare op dt x y ihx ihy =>
    intro hc
    rw [simplify]
    split_ifs with hfold
    · trivial
    · exact ⟨ihx hc.1, ihy hc.2⟩
  | unary op dt x ih =>
    intro hc
    rw [simplify]
    split_ifs with hfold
    · trivial
    · exact ih hc
  | whereE dt c x y ihc ihx ihy =>
    intro hc
    obtain ⟨hcc, hcx, hcy⟩ := hc
    rw [simplify]
    cases hcv : constArg (simplify mf c) with
    | some v =>
      simp only
      split_ifs with htr
      · exact ihx hcx
      · exact ihy hcy
    | none =>
      exact ⟨ihc hcc, ihx hcx, ihy hcy⟩
  | constE dt v =>
    intro hc
    trivial
  | special dt name n =>
    intro hc
    exact hc
  | globalIndex dt gid bufidx ih =>
    intro hc
    exact ⟨hc.1, ih hc.2⟩

lemma evaluate_simplify (mf : MathFns) (ctx : Ctx) :
    ∀ e : AluExp, WT e = true → CtxOk ctx e →
      evaluate mf ctx (simplify mf e) = evaluate mf ctx e := by
  intro e
  induction e with
  | binary op dt x y ihx ihy =>
    intro hw hc
    obtain ⟨hwx, hwy, hdx, hdy, hop⟩ := WT_binary_iff.mp hw
    obtain ⟨hcx, hcy⟩ := hc
    obtain ⟨hwx', hdx'⟩ := simplify_WT mf x hwx
    obtain ⟨hwy', hdy'⟩ := simplify_WT mf y hwy
    rw [simplify]
    rw [simplifyBinary_evaluate mf ctx hwx' hwy' (hdx' ▸ hdx) (hdy' ▸ hdy)
      (CtxOk_simplify mf ctx x hcx) (CtxOk_simplify mf ctx y hcy)]
    rw [ihx hwx hcx, ihy hwy hcy]
    rfl
  | compare op dt x y ihx ihy =>
    intro hw hc
    obtain ⟨hwx, hwy, rfl⟩ := WT_compare_iff.mp hw
    obtain ⟨hcx, hcy⟩ := hc
    rw [simplify]
    split_ifs with hfold
    · obtain ⟨hcstx, hcsty⟩ := hfold
      obtain ⟨vx, hvx⟩ := Option.isSome_iff_exists.mp hcstx
      obtain ⟨vy, hvy⟩ := Option.isSome_iff_exists.mp hcsty
      have hex : evaluate mf ctx (simplify mf x) = vx := by
        obtain ⟨cdt, heq⟩ := constArg_eq_some.mp hvx
        rw [heq]; rfl
      have hey : evaluate mf ctx (simplify mf y) = vy := by
        obtain ⟨cdt, heq⟩ := constArg_eq_some.mp hvy
        rw [heq]; rfl
      have hex0 : evaluate mf emptyCtx (simplify mf x) = vx := by
        obtain ⟨cdt, heq⟩ := constArg_eq_some.mp hvx
        rw [heq]; rfl
      have hey0 : evaluate mf emptyCtx (simplify mf y) = vy := by
        obtain ⟨cdt, heq⟩ := constArg_eq_some.mp hvy
        rw [heq]; rfl
      calc evaluate mf ctx (.constE _ (evaluate mf emptyCtx
              (.compare op DType.bool (simplify mf x) (simplify mf y))))
          = evalCompare op vx vy := by
            simp [evaluate, hex0, hey0]
        _ = evalCompare op (evaluate mf ctx x) (evaluate mf ctx y) := by
            rw [← ihx hwx hcx, ← ihy hwy hcy, hex, hey]
        _ = evaluate mf ctx (.compare op DType.bool x y) := rfl
    · simp only [evaluate]
      rw [ihx hwx hcx, ihy hwy hcy]
  | unary op dt x ih =>
    intro hw hc
    simp [WT] at hw
  | whereE dt c x y ihc ihx ihy =>
    intro hw hc
    obtain ⟨hwc, hwx, hwy, hdx, hdy⟩ := WT_whereE_iff.mp hw
    obtain ⟨hcc, hcx, hcy⟩ := hc
    rw [simplify]
    cases hcv : constArg (simplify mf c) with
    | some v =>
      have hec : evaluate mf ctx c = v := by
        rw [← ihc hwc hcc]
        obtain ⟨cdt, heq⟩ := constArg_eq_some.mp hcv
        rw [heq]; rfl
      simp only
      split_ifs with htr
      · rw [ihx hwx hcx]
        simp [evaluate, hec, htr]
      · rw [ihy hwy hcy]
        simp [evaluate, hec, htr]
    | none =>
      simp only [evaluate]
      rw [ihc hwc hcc, ihx hwx hcx, ihy hwy hcy]
  | constE dt v =>
    intro _ _
    rfl
  | special dt name n =>
    intro _ _
    rfl
  | globalIndex dt gid bufidx ih =>
    intro hw hc
    simp only [simplify, evaluate]
    rw [ih hw hc.2]

/-! ### The `vmapFlat` axis-size scan: invariants -/

lemma vmapSizeLoop_some : ∀ (args : List (Option ℤ × VArg)) (m : ℕ) (res : Option ℕ),
    vmapSizeLoop (some m) args = .ok res → res = some m := by
  intro args
  induction args with
  | nil =>
    intro m res h
    simp only [vmapSizeLoop, Except.ok.injEq] at h
    exact h.symm
  | cons p rest ih =>
    intro m res h
    obtain ⟨oax, parg⟩ := p
    cases oax with
    | none => exact ih m res (by simpa [vmapSizeLoop] using h)
    | some ax =>
      cases parg with
      | scalar => simp [vmapSizeLoop] at h
      | tracer sh =>
        simp only [vmapSizeLoop] at h
        rw [if_neg (by simp : ¬((some m : Option ℕ) = none))] at h
        by_cases hsz : (some m : Option ℕ) ≠ shapeAt sh ax
        · rw [if_pos hsz] at h
          exact absurd h (by simp)
        · rw [if_neg hsz] at h
          exact ih m res h

lemma vmapSizeLoop_ok_mem : ∀ (args : List (Option ℤ × VArg)) (acc res : Option ℕ),
    vmapSizeLoop acc args = .ok res →
    ∀ ax arg, ((some ax : Option ℤ), arg) ∈ args →
      ∃ sh, arg = VArg.tracer sh ∧ (shapeAt sh ax = none ∨ shapeAt sh ax = res) := by
  intro args
  induction args with
  | nil =>
    intro acc res h ax arg hmem
    simp at hmem
  | cons p rest ih =>
    intro acc res h ax arg hmem
    obtain ⟨oax, parg⟩ := p
    cases oax with
    | none =>
      rcases List.mem_cons.mp hmem with heq | hmem2
      · exact absurd (congrArg Prod.fst heq) (by simp)
      · exact ih acc res (by simpa [vmapSizeLoop] using h) ax arg hmem2
    | some ax0 =>
      cases parg with
      | scalar => simp [vmapSizeLoop] at h
      | tracer sh0 =>
        simp only [vmapSizeLoop] at h
        split_ifs at h with h1 h2
        · rcases List.mem_cons.mp hmem with heq | hmem2
          · have hax : ax0 = ax := by
              have := congrArg Prod.fst heq
              simpa using this.symm
            have harg : arg = VArg.tracer sh0 := congrArg Prod.snd heq
            subst hax
            refine ⟨sh0, harg, ?_⟩
            cases hsz : shapeAt sh0 ax0 with
            | none => exact Or.inl rfl
            | some m =>
              rw [hsz] at h
              exact Or.inr ((vmapSizeLoop_some rest m res h).symm)
          · exact ih _ res h ax arg hmem2
        · obtain ⟨m, rfl⟩ := Option.ne_none_iff_exists'.mp h1
          have hres : res = some m := vmapSizeLoop_some rest m res h
          rcases List.mem_cons.mp hmem with heq | hmem2
          · have hax : ax0 = ax := by
              have := congrArg Prod.fst heq
              simpa using this.symm
            have harg : arg = VArg.tracer sh0 := congrArg Prod.snd heq
            subst hax
            have hsz : shapeAt sh0 ax0 = some m := by
              by_contra hne
              exact h2 (fun hcontra => hne hcontra.symm)
            exact ⟨sh0, harg, Or.inr (by rw [hsz, hres])⟩
          · exact ih _ res h ax arg hmem2

/-! ## Claim theorems -/

/-- C1 (amended): simplification preserves semantics on the well-typed
integer/boolean fragment.  For every expression `e` that is well typed
in the fragment the library uses `AluExp` for (dtype-consistent nodes,
integer-valued constants, boolean carriers only where the code computes
OR/AND, no float-producing `sin`/`cos`), and every context supplying
fragment-typed values for the `Special` variables and `GlobalIndex`
reads, `evaluate(simplify(e), ctx) = evaluate(e, ctx)`.  The unamended
claim, quantifying over all expressions and contexts, is refuted by
`C1_counterexample`: the `x idiv 1 ⇒ x` fold is unsound on non-integer
values. -/
theorem C1_simplify_preserves_semantics (mf : MathFns) (ctx : Ctx)
    (e : AluExp) (hw : WT e = true) (hc : CtxOk ctx e) :
    evaluate mf ctx (simplify mf e) = evaluate mf ctx e :=
  evaluate_simplify mf ctx e hw hc

/-- C1 (witness): the preservation theorem applied to a concrete
expression `x + 0` with `x = 3`. -/
theorem C1_witness :
    WT (AluExp.add (.special .int32 "x" 4) (AluExp.i32 0)) = true ∧
    CtxOk ⟨fun _ => .num 3, fun _ _ => .num 0⟩
      (AluExp.add (.special .int32 "x" 4) (AluExp.i32 0)) ∧
    evaluate mfZero ⟨fun _ => .num 3, fun _ _ => .num 0⟩
        (simplify mfZero (AluExp.add (.special .int32 "x" 4) (AluExp.i32 0))) =
      evaluate mfZero ⟨fun _ => .num 3, fun _ _ => .num 0⟩
        (AluExp.add (.special .int32 "x" 4) (AluExp.i32 0)) :=
  ⟨by decide,
    by simp [CtxOk, AluExp.add, AluExp.i32, AluExp.dtype, HasIntType, Val.isIntNum],
    C1_simplify_preserves_semantics mfZero _ _ (by decide)
      (by simp [CtxOk, AluExp.add, AluExp.i32, AluExp.dtype, HasIntType, Val.isIntNum])⟩

/-- C1 (counterexample): the claim as stated fails.  For
`e = idiv(x, 1)` over Float32 with context `x = 5/2` (exactly
representable in float32), the source simplifies `e` to `x`, which
evaluates to `5/2`, while `e` itself evaluates to
`Math.floor(2.5 / 1) = 2`. -/
theorem C1_counterexample :
    evaluate mfZero ⟨fun _ => .num (5 / 2), fun _ _ => .num 0⟩
        (simplify mfZero (AluExp.idiv (.special .float32 "x" 1) (AluExp.f32 1))) ≠
      evaluate mfZero ⟨fun _ => .num (5 / 2), fun _ _ => .num 0⟩
        (AluExp.idiv (.special .float32 "x" 1) (AluExp.f32 1)) := by
  have h1 : simplify mfZero (AluExp.idiv (.special .float32 "x" 1) (AluExp.f32 1)) =
      .special .float32 "x" 1 := by rfl
  rw [h1]
  simp only [evaluate, evalBinary, Val.toNum, AluExp.f32, AluExp.idiv]
  intro h
  have h2 : (5 / 2 : ℚ) = (⌊(5 / 2 : ℚ) / 1⌋ : ℤ) := Val.num.inj h
  norm_num at h2

/-- C2 (amended): `simplify` is not structurally idempotent (see
`C2_counterexample`: the `x - (-1 * y) ⇒ x + y` rewrite returns without
re-simplification, so a second pass can still fold), but it is
semantically idempotent on the well-typed integer/boolean fragment:
`simplify(simplify(e))` evaluates identically to `simplify(e)` in every
fragment-typed context. -/
theorem C2_simplify_semantically_idempotent (mf : MathFns) (ctx : Ctx)
    (e : AluExp) (hw : WT e = true) (hc : CtxOk ctx e) :
    evaluate mf ctx (simplify mf (simplify mf e)) =
      evaluate mf ctx (simplify mf e) :=
  evaluate_simplify mf ctx (simplify mf e) (simplify_WT mf e hw).1
    (CtxOk_simplify mf ctx e hc)

/-- C2 (witness): semantic idempotence applied to the very expression on
which structural idempotence fails. -/
theorem C2_witness :
    WT (AluExp.sub (AluExp.i32 0) (AluExp.mul (AluExp.i32 (-1))
      (.special .int32 "x" 1))) = true ∧
    CtxOk ctxZero (AluExp.sub (AluExp.i32 0) (AluExp.mul (AluExp.i32 (-1))
      (.special .int32 "x" 1))) ∧
    evaluate mfZero ctxZero (simplify mfZero (simplify mfZero
        (AluExp.sub (AluExp.i32 0) (AluExp.mul (AluExp.i32 (-1))
          (.special .int32 "x" 1))))) =
      evaluate mfZero ctxZero (simplify mfZero
        (AluExp.sub (AluExp.i32 0) (AluExp.mul (AluExp.i32 (-1))
          (.special .int32 "x" 1)))) :=
  ⟨by decide,
    by simp [CtxOk, AluExp.sub, AluExp.mul, AluExp.i32, AluExp.dtype, ctxZero,
      HasIntType, Val.isIntNum],
    C2_simplify_semantically_idempotent mfZero ctxZero _ (by decide)
      (by simp [CtxOk, AluExp.sub, AluExp.mul, AluExp.i32, AluExp.dtype, ctxZero,
        HasIntType, Val.isIntNum])⟩

/-- C2 (counterexample): the claim as stated fails.  For
`e = sub(0, mul(-1, x))`, the rewrite at lines 100–110 of src/alu.ts
returns `add(0, x)` without folding it, so `simplify(e) = add(0, x)`
while `simplify(simplify(e)) = x`: the two are structurally
different. -/
theorem C2_counterexample :
    simplify mfZero (simplify mfZero
        (AluExp.sub (AluExp.i32 0) (AluExp.mul (AluExp.i32 (-1))
          (.special .int32 "x" 1)))) ≠
      simplify mfZero
        (AluExp.sub (AluExp.i32 0) (AluExp.mul (AluExp.i32 (-1))
          (.special .int32 "x" 1))) := by
  decide

/-- C3 (amended): on 32-bit integer operands with `y ≠ 0`, `idiv`
evaluates to the floor division `Int.fdiv x y` (truncation toward
negative infinity, as claimed), but `mod` evaluates to the truncated
remainder `Int.tmod x y` (JavaScript `%`, sign of the dividend) — the
complement of truncating division, not of floor division.  The identity
`idiv(x,y)*y + mod(x,y) = x` therefore holds when `x*y ≥ 0` (where
floor and truncation agree); `C3_counterexample` refutes it, and the
floor-complement description of `mod`, at `x = -7`, `y = 2`. -/
theorem C3_idiv_floors_mod_truncates (mf : MathFns) (ctx : Ctx) (x y : ℤ)
    (_hx1 : -(2 ^ 31) ≤ x) (_hx2 : x < 2 ^ 31) (_hy1 : -(2 ^ 31) ≤ y)
    (_hy2 : y < 2 ^ 31) (hy : y ≠ 0) :
    evaluate mf ctx (AluExp.idiv (AluExp.i32 (x : ℚ)) (AluExp.i32 (y : ℚ))) =
      .num ((x.fdiv y : ℤ) : ℚ) ∧
    evaluate mf ctx (AluExp.modE (AluExp.i32 (x : ℚ)) (AluExp.i32 (y : ℚ))) =
      .num ((x.tmod y : ℤ) : ℚ) ∧
    (0 ≤ x * y → x.fdiv y * y + x.tmod y = x) := by
  have htd : jsTrunc ((x : ℚ) / (y : ℚ)) = x.tdiv y := jsTrunc_intCast_div x y hy
  refine ⟨?_, ?_, ?_⟩
  · simp only [evaluate, evalBinary, AluExp.idiv, AluExp.i32, Val.toNum, AluExp.dtype]
    rw [floor_intCast_div_fdiv x y hy]
  · simp only [evaluate, evalBinary, AluExp.modE, AluExp.i32, Val.toNum, AluExp.dtype,
      jsMod]
    rw [htd, tmod_eq_sub]
    congr 1
    push_cast
    ring
  · intro hxy
    have hq : 0 ≤ (x : ℚ) / (y : ℚ) := by
      rw [div_nonneg_iff]
      rcases lt_or_gt_of_ne hy with h | h
      · have hx : x ≤ 0 := by nlinarith
        right
        constructor
        · exact_mod_cast hx
        · exact_mod_cast h.le
      · have hx : 0 ≤ x := by nlinarith
        left
        constructor
        · exact_mod_cast hx
        · exact_mod_cast h.le
    have ht : x.tdiv y = x.fdiv y := by
      rw [← htd, ← floor_intCast_div_fdiv x y hy, jsTrunc, if_pos hq]
    rw [tmod_eq_sub, ht]
    ring

/-- C3 (witness): the amended theorem applied at `x = 7`, `y = 2`. -/
theorem C3_witness :
    evaluate mfZero ctxZero
        (AluExp.idiv (AluExp.i32 ((7 : ℤ) : ℚ)) (AluExp.i32 ((2 : ℤ) : ℚ))) =
      .num (((7 : ℤ).fdiv 2 : ℤ) : ℚ) ∧
    evaluate mfZero ctxZero
        (AluExp.modE (AluExp.i32 ((7 : ℤ) : ℚ)) (AluExp.i32 ((2 : ℤ) : ℚ))) =
      .num (((7 : ℤ).tmod 2 : ℤ) : ℚ) ∧
    (0 ≤ (7 : ℤ) * 2 → (7 : ℤ).fdiv 2 * 2 + (7 : ℤ).tmod 2 = 7) :=
  C3_idiv_floors_mod_truncates mfZero ctxZero 7 2 (by norm_num) (by norm_num)
    (by norm_num) (by norm_num) (by norm_num)

/-- C3 (counterexample): at `x = -7`, `y = 2` the evaluator returns
`-7 % 2 = -1` for `mod`, while the floor-complement the claim describes
is `-7 - 2*floor(-7/2) = 1`; consequently
`idiv(-7,2)*2 + mod(-7,2) = -9 ≠ -7`. -/
theorem C3_counterexample :
    evaluate mfZero ctxZero (AluExp.modE (AluExp.i32 (-7)) (AluExp.i32 2)) =
      .num (-1) ∧
    ((-7 : ℤ) - 2 * ⌊((-7 : ℚ)) / 2⌋) = 1 ∧
    evaluate mfZero ctxZero (AluExp.modE (AluExp.i32 (-7)) (AluExp.i32 2)) ≠
      .num ((((-7 : ℤ) - 2 * ⌊((-7 : ℚ)) / 2⌋ : ℤ)) : ℚ) := by
  have h1 : evaluate mfZero ctxZero
      (AluExp.modE (AluExp.i32 (-7)) (AluExp.i32 2)) = .num (-1) := by
    simp only [evaluate, evalBinary, AluExp.modE, AluExp.i32, Val.toNum, jsMod,
      jsTrunc]
    norm_num
  have h2 : ((-7 : ℤ) - 2 * ⌊((-7 : ℚ)) / 2⌋) = 1 := by norm_num
  refine ⟨h1, h2, ?_⟩
  rw [h1, h2]
  intro h
  have := Val.num.inj h
  norm_num at this

/-- C4 (code bug): `View.create` with `shape = [3]`, `strides = [1]`,
`offset = 0` and the mask `[1, 2)` collapsing dimension 0 to the single
index 1.  The claim (and the offset computation at lines 97–100 of
src/shape.ts, and the comment above it) require stride 0 — which the
code does produce — and offset `0 + strides[0]*1 = 1`; but line 103
returns `new View(shape, strides, 0, null)`, so the returned offset is
0, not 1. -/
theorem C4_viewCreate_discards_offset :
    viewCreate [3] (some [1]) 0 (some [(1, 2)]) =
      .ok ⟨[3], [0], 0, none⟩ ∧ (0 : ℤ) + 1 * 1 ≠ 0 := by
  constructor
  · rfl
  · decide

/-- C5 (amended): under JVP, the tangent of `min` is `dy` if `y < x`
and `dx` otherwise, while the tangent of `max` is `dx` if `y < x` and
`dy` otherwise (the claim asserted the same `dy if y<x else dx` formula
for both); ties (`y = x`) take the first operand tangent `dx` for `min`
and the second operand tangent `dy` for `max` (the claim asserted the
second for both).  Refuted as stated by `C5_counterexample`. -/
theorem C5_jvp_min_max_tangent (x dx y dy : ℚ) :
    (jvpMin x dx y dy).2 = (if y < x then dy else dx) ∧
    (jvpMax x dx y dy).2 = (if y < x then dx else dy) ∧
    (y = x → (jvpMin x dx y dy).2 = dx ∧ (jvpMax x dx y dy).2 = dy) := by
  refine ⟨?_, ?_, ?_⟩
  · simp [jvpMin, whereP, lessP]
  · simp [jvpMax, whereP, lessP]
  · rintro rfl
    simp [jvpMin, jvpMax, whereP, lessP]

/-- C5 (witness): the amended theorem applied at the tie
`x = y = 5`, `dx = 1`, `dy = 2`. -/
theorem C5_witness : (jvpMin 5 1 5 2).2 = 1 ∧ (jvpMax 5 1 5 2).2 = 2 :=
  (C5_jvp_min_max_tangent 5 1 5 2).2.2 rfl

/-- C5 (counterexample): with `(x, dx) = (0, 1)` and `(y, dy) = (-1, 2)`
we have `y < x`, so the claim predicts the max tangent `dy = 2`; the
rule `where(less(y, x), dx, dy)` produces `dx = 1`.  And at the tie
`(0, 1)`, `(0, 2)` the claim predicts the second operand tangent `2`
for min; the rule produces `dx = 1`. -/
theorem C5_counterexample :
    (jvpMax 0 1 (-1) 2).2 = 1 ∧ (jvpMin 0 1 0 2).2 = 1 ∧ (1 : ℚ) ≠ 2 := by
  refine ⟨?_, ?_, by norm_num⟩ <;> norm_num [jvpMax, jvpMin, whereP, lessP]

/-- C6: the vmap batching rule for `reduceSum` with a batched input
(batch axis `b`) calls `reduceSum` with every requested axis `a`
incremented by 1 exactly when `a ≥ b` (the source writes
`ax + (xBdim <= ax ? 1 : 0)`), and declares the output batched at
`b` minus the number of requested axes strictly less than `b`. -/
theorem C6_vmap_reduceSum_axes (b : ℤ) (axis : List ℤ) :
    (vmapReduceSumRule (some b) axis).1 =
      axis.map (fun a => if a ≥ b then a + 1 else a) ∧
    (vmapReduceSumRule (some b) axis).2 =
      some (b - ((axis.filter (fun a => a < b)).length : ℤ)) := by
  constructor
  · simp only [vmapReduceSumRule]
    refine List.map_congr_left fun a _ => ?_
    by_cases h : b ≤ a <;> simp [h, ge_iff_le]
  · rfl

/-- C7 (amended): `vmapFlat` enforces axis-size consistency.  If the
validation of the argument list succeeds with size `n`, then every
argument whose `inAxes` entry is non-null is a `Tracer` whose length
along its mapped axis is `n` (or an out-of-bounds `undefined`); in
particular two mapped arguments with defined, differing axis lengths
make the validation fail — but with a
`TypeError("vmap requires all mapped axes to have the same size")`, not
with the ShapeError class named by the claim (`C7_counterexample`). -/
theorem C7_vmap_axis_size_consistency (args : List (Option ℤ × VArg)) (n : ℕ) :
    (vmapFlatAxisSize args = .ok n →
      ∀ ax arg, ((some ax : Option ℤ), arg) ∈ args →
        ∃ sh, arg = VArg.tracer sh ∧
          (shapeAt sh ax = some n ∨ shapeAt sh ax = none)) ∧
    (∀ ax1 sh1 ax2 sh2 m1 m2,
      ((some ax1 : Option ℤ), VArg.tracer sh1) ∈ args →
      ((some ax2 : Option ℤ), VArg.tracer sh2) ∈ args →
      shapeAt sh1 ax1 = some m1 → shapeAt sh2 ax2 = some m2 → m1 ≠ m2 →
      ∀ k, vmapFlatAxisSize args ≠ .ok k) := by
  have main : ∀ k, vmapFlatAxisSize args = .ok k →
      ∀ ax arg, ((some ax : Option ℤ), arg) ∈ args →
        ∃ sh, arg = VArg.tracer sh ∧
          (shapeAt sh ax = some k ∨ shapeAt sh ax = none) := by
    intro k hk ax arg hmem
    unfold vmapFlatAxisSize at hk
    cases hloop : vmapSizeLoop none args with
    | error e =>
      rw [hloop] at hk
      simp at hk
    | ok acc =>
      rw [hloop] at hk
      cases acc with
      | none => simp at hk
      | some n2 =>
        simp only [Except.ok.injEq] at hk
        subst hk
        obtain ⟨sh, harg, hor⟩ := vmapSizeLoop_ok_mem args none (some n2) hloop ax arg hmem
        exact ⟨sh, harg, hor.symm.imp id id⟩
  constructor
  · exact main n
  · intro ax1 sh1 ax2 sh2 m1 m2 h1 h2 hs1 hs2 hne k hk
    obtain ⟨sha, ha, hora⟩ := main k hk ax1 _ h1
    obtain ⟨shb, hb, horb⟩ := main k hk ax2 _ h2
    cases VArg.tracer.inj ha
    cases VArg.tracer.inj hb
    rcases hora with ha2 | ha2 <;> rcases horb with hb2 | hb2 <;>
      rw [hs1] at ha2 <;> rw [hs2] at hb2 <;>
        first
        | (exact hne (by injection ha2 with e1; injection hb2 with e2; rw [e1, e2]))
        | (exact Option.noConfusion ha2)
        | (exact Option.noConfusion hb2)

/-- C7 (witness): the consistency theorem applied to a concrete valid
argument list of batch size 2. -/
theorem C7_witness :
    vmapFlatAxisSize [(some 0, VArg.tracer [2, 3]), (none, VArg.scalar),
        (some 1, VArg.tracer [7, 2])] = .ok 2 ∧
    (∃ sh, VArg.tracer [7, 2] = VArg.tracer sh ∧
      (shapeAt sh 1 = some 2 ∨ shapeAt sh 1 = none)) :=
  ⟨rfl,
    (C7_vmap_axis_size_consistency
        [(some 0, VArg.tracer [2, 3]), (none, VArg.scalar),
          (some 1, VArg.tracer [7, 2])] 2).1 rfl 1 (VArg.tracer [7, 2])
      (by simp)⟩

/-- C7 (counterexample): two tracers of lengths 2 and 3 mapped on axis 0
fail — but with a `TypeError`, whose JavaScript class name is not the
ShapeError the claim names. -/
theorem C7_counterexample :
    vmapFlatAxisSize [(some 0, .tracer [2]), (some 0, .tracer [3])] =
      .error (.typeError "vmap requires all mapped axes to have the same size") ∧
    JsError.name
        (.typeError "vmap requires all mapped axes to have the same size") ≠
      "ShapeError" := by
  constructor
  · rfl
  · decide

/-- C8 (code bug): the part_001 revision of `uniform` realizes exactly
the claimed derivation — at the spec byte-for-byte sample
`bits(key(0)) = 4070199207` it yields
`(4070199207 >>> 9) / 2^23 = 7949607/8388608 ∈ [0, 1)` — but the
part_007 revision is a stub `full(shape, minval)` that ignores the key
bits and `maxval` entirely, returning `0` here. -/
theorem C8_uniform_stub_ignores_bits :
    uniformSample 4070199207 0 1 = .ok (7949607 / 8388608 : ℚ) ∧
    uniformStub 4070199207 0 1 = 0 ∧ (7949607 / 8388608 : ℚ) ≠ 0 := by
  refine ⟨?_, rfl, by norm_num⟩
  simp only [uniformSample, float32OfOnePlusMantissa]
  norm_num

/-- C9: slots are classically reference-counted.  On a live slot,
`decRef` succeeds; it frees the buffer exactly when the count reaches
zero, after which `incRef`, `decRef` and `readSync` on that slot all
raise `SlotError` (the ReferenceError of the spec); when the count is
still positive, the entry survives with the count decremented and the
buffer intact. -/
theorem C9_refcount_decRef_frees_at_zero (st : CPUBackend) (slot : ℕ)
    (e : BufEntry) (h : st.buffers slot = some e) :
    (e.ref = 1 →
      (decRef slot st >>= fun st2 => Except.ok (st2.buffers slot)) = .ok none ∧
      (decRef slot st >>= incRef slot) = .error (.slotError slot) ∧
      (decRef slot st >>= decRef slot) = .error (.slotError slot) ∧
      (decRef slot st >>= readSync slot none none) = .error (.slotError slot)) ∧
    (e.ref ≠ 1 →
      (decRef slot st >>= fun st2 => Except.ok (st2.buffers slot)) =
        .ok (some ⟨e.ref - 1, e.buffer⟩)) := by
  constructor
  · intro h1
    have hd : decRef slot st =
        .ok ⟨fun s => if s = slot then none else st.buffers s, st.nextSlot⟩ := by
      simp [decRef, h, h1]
    refine ⟨?_, ?_, ?_, ?_⟩ <;>
      rw [hd] <;>
      simp [Bind.bind, Except.bind, incRef, decRef, readSync]
  · intro h1
    have hd : decRef slot st =
        .ok ⟨fun s => if s = slot then some ⟨e.ref - 1, e.buffer⟩ else st.buffers s,
          st.nextSlot⟩ := by
      have h2 : ¬(e.ref - 1 = 0) := by omega
      simp [decRef, h, h2]
    rw [hd]
    simp [Bind.bind, Except.bind]

/-- C9 (witness): the refcount theorem applied to a concrete one-slot
backend (as produced by `malloc 4` on the initial state) whose single
reference is dropped: the slot is freed and every further operation
errors. -/
theorem C9_witness :
    (decRef 1 (⟨fun s => if s = 1 then some ⟨1, List.replicate 4 0⟩ else none, 2⟩ :
        CPUBackend) >>= fun st2 => Except.ok (st2.buffers 1)) = .ok none ∧
    (decRef 1 (⟨fun s => if s = 1 then some ⟨1, List.replicate 4 0⟩ else none, 2⟩ :
        CPUBackend) >>= incRef 1) = .error (.slotError 1) ∧
    (decRef 1 (⟨fun s => if s = 1 then some ⟨1, List.replicate 4 0⟩ else none, 2⟩ :
        CPUBackend) >>= decRef 1) = .error (.slotError 1) ∧
    (decRef 1 (⟨fun s => if s = 1 then some ⟨1, List.replicate 4 0⟩ else none, 2⟩ :
        CPUBackend) >>= readSync 1 none none) = .error (.slotError 1) :=
  (C9_refcount_decRef_frees_at_zero
      ⟨fun s => if s = 1 then some ⟨1, List.replicate 4 0⟩ else none, 2⟩ 1
      ⟨1, List.replicate 4 0⟩ rfl).1 rfl

/-- C10: the lazy-array binary operations throw exactly when the two
operand shapes are not element-wise equal or the dtypes differ (no
broadcasting, no promotion), and on success return an array with the
shared shape and dtype. -/
theorem C10_array_binary_strict (op : BinOp) (a b : LazyArray) :
    (a.shape = b.shape → a.dtype = b.dtype →
      arrayBinary op a b = .ok ⟨a.shape, a.dtype, a.sourceIsExp && b.sourceIsExp⟩) ∧
    (¬(a.shape = b.shape ∧ a.dtype = b.dtype) →
      ∃ msg, arrayBinary op a b = .error (.plain msg)) ∧
    (∀ r, arrayBinary op a b = .ok r →
      r.shape = a.shape ∧ r.shape = b.shape ∧ r.dtype = a.dtype ∧ r.dtype = b.dtype) := by
  refine ⟨?_, ?_, ?_⟩
  · intro h1 h2
    rw [arrayBinary, if_neg (not_not_intro h1), if_neg (not_not_intro h2)]
    cases hs : a.sourceIsExp && b.sourceIsExp <;> simp [hs]
  · intro h
    rw [arrayBinary]
    by_cases h1 : a.shape = b.shape
    · have h2 : a.dtype ≠ b.dtype := fun hd => h ⟨h1, hd⟩
      rw [if_neg (not_not_intro h1), if_pos h2]
      exact ⟨_, rfl⟩
    · rw [if_pos h1]
      exact ⟨_, rfl⟩
  · intro r hr
    rw [arrayBinary] at hr
    split_ifs at hr with h1 h2 h3 <;>
      first
      | (cases hr; exact ⟨rfl, by rw [not_not.mp h1], rfl, by rw [not_not.mp h2]⟩)

/-- C10 (witness): `Array.add` on two equal-shape, equal-dtype
expression-backed arrays succeeds with the shared shape and dtype. -/
theorem C10_witness :
    arrayAdd ⟨[2, 3], .float32, true⟩ ⟨[2, 3], .float32, true⟩ =
      .ok ⟨[2, 3], .float32, true⟩ :=
  (C10_array_binary_strict .add ⟨[2, 3], .float32, true⟩
    ⟨[2, 3], .float32, true⟩).1 rfl rfl

end JaxJs
